import Mathlib

/-!
Verification model of the `fbheap` Rust crate (Fibonacci-heap priority queue).

Shallow embedding notes:
* `NRef<T, Priority> = Rc<RefCell<NCore<T, Priority>>>` is modelled by an
  identifier (`Nat`) into a growing store `Nat → Node`.  The store is never
  shrunk: a node dropped by Rust simply becomes unreferenced (on a successful
  `pair` extraction its `parent` field is cleared, mirroring the drop of the
  `NCore` and the strong references it held).
* The value type `T` is instantiated at `Nat`, the priority type at `Int`
  (the Rust code is generic over `T : Eq` and `Priority : Ord`).
* Both front-ends (`SimpleQueue`, `HashQueue`) share one state type; the
  `indexed` flag selects the `HashMap`-backed `insert_node`/`get_node`
  implementations, exactly as the two Rust impl blocks differ.
* Rust panics (index out of bounds in `consolidate`, `ilog(0)` in
  `max_node_rank`, unbounded recursion) are modelled as an explicit `crash`
  outcome / `Option.none`.
* Machine integers: `node_count` is a `usize`; `checked_add` fails at
  `2^64 - 1`, and `pow(3)` wraps modulo `2^64` (release-profile semantics),
  made explicit with `% 2 ^ 64`.
-/

namespace FbHeap

/-- Error taxonomy from `src/error.rs`. -/
inductive Error where
  | ImpossibleRcRelease
  | InvalidIndex
  | ReachedCapacity
  | Numerical
  | Empty
  | CannotIncreasePriority
deriving DecidableEq, Repr

/-- One `NCore<T, Priority>` cell from `src/node.rs` (`T = Nat`,
`Priority = Int`); `parent` and `children` hold node identifiers in place of
`NRef` reference-counted pointers. -/
structure Node where
  value : Nat
  priority : Int
  parent : Option Nat
  children : List Nat
  marked : Bool
deriving DecidableEq, Repr

/-- Queue state shared by both front-ends (`SimpleQueue` / `HashQueue` in
`src/heap.rs`).  `store`/`nextId` model the allocator for `Rc` cells;
`index` models the `HashMap<T, NRef>` of `HashQueue` and stays empty when
`indexed = false`. -/
structure St where
  store : Nat → Node
  nextId : Nat
  roots : List Nat
  first : Option Nat
  node_count : Nat
  indexed : Bool
  index : List (Nat × Nat)

/-- Update one node of the store. -/
def St.upd (s : St) (id : Nat) (f : Node → Node) : St :=
  { s with store := fun x => if x = id then f (s.store x) else s.store x }

/-- `usize::MAX` on a 64-bit target. -/
def usizeMax : Nat := 2 ^ 64 - 1

/-- `FbQueue::new` for either front-end. -/
def newQueue (indexed : Bool) : St :=
  { store := fun _ => ⟨0, 0, none, [], false⟩
    nextId := 0
    roots := []
    first := none
    node_count := 0
    indexed := indexed
    index := [] }

/-- `FbQueue::is_empty`. -/
def is_empty (s : St) : Bool := s.node_count = 0

/-- `HashMap::insert` on the value→node index: replaces any entry with the
same key. -/
def idxInsert (idx : List (Nat × Nat)) (v id : Nat) : List (Nat × Nat) :=
  (v, id) :: idx.filter (fun e => e.1 ≠ v)

/-- `HashMap::get` on the value→node index. -/
def idxLookup (idx : List (Nat × Nat)) (v : Nat) : Option Nat :=
  (idx.find? (fun e => e.1 = v)).map (·.2)

/-- `FbQueue::push` (`src/heap.rs` lines 147-158): `insert_node` allocates the
node (and, in the `HashQueue` impl, records it in the map), `insert_root`
appends it to `roots`, the cached `first` is kept only when strictly smaller,
and finally `increment_node_count` fails with `ReachedCapacity` when the
`usize` counter is exhausted (`checked_add`), leaving the count unchanged. -/
def push (s : St) (v : Nat) (p : Int) : Except Error Unit × St :=
  let id := s.nextId
  let s1 : St :=
    { s with
      store := fun x => if x = id then ⟨v, p, none, [], false⟩ else s.store x
      nextId := id + 1
      index := if s.indexed then idxInsert s.index v id else s.index }
  let s2 : St := { s1 with roots := s1.roots ++ [id] }
  let s3 : St :=
    match s2.first with
    | some f => if (s2.store f).priority < p then s2 else { s2 with first := some id }
    | none => { s2 with first := some id }
  if s3.node_count = usizeMax then (.error .ReachedCapacity, s3)
  else (.ok (), { s3 with node_count := s3.node_count + 1 })

/-- `usize::ilog(4)` for a positive argument: the floor logarithm computed by
repeated division, with enough fuel (the argument itself) for the division
chain to bottom out. -/
def ilog4 : Nat → Nat → Nat
  | 0, _ => 0
  | fuel + 1, n => if n < 4 then 0 else ilog4 fuel (n / 4) + 1

/-- `max_node_rank` from the `make_node_count_fns!` macro (`src/heap.rs` lines
239-251): `node_count.pow(3)` wraps modulo `2^64`, then `ilog(4)` panics when
its argument is zero (modelled as `none`); `checked_add(1)` and the
`usize::try_from` of the `u32` result never fail on a 64-bit target, so the
`Error::Numerical` paths are unreachable and the only non-value outcome is the
panic. -/
def max_node_rank (count : Nat) : Option Nat :=
  let c := count ^ 3 % 2 ^ 64
  if c = 0 then none else some (ilog4 c c + 1)

/-- `NPrpt::link` (`src/node.rs` lines 212-221) called as `a.link(b)`: the
strictly greater node (by priority, `NCore::cmp`) becomes the child; on ties
`self` (= `a`) becomes the parent.  The child's parent pointer is set, the
child is appended to the parent's child list, and the parent is unmarked. -/
def linkNodes (s : St) (a b : Nat) : St :=
  if (s.store a).priority > (s.store b).priority then
    let s1 := s.upd a (fun n => { n with parent := some b })
    s1.upd b (fun n => { n with children := n.children ++ [a], marked := false })
  else
    let s1 := s.upd b (fun n => { n with parent := some a })
    s1.upd a (fun n => { n with children := n.children ++ [b], marked := false })

/-- The inner `while let Some(node) = &mut ranks[rank]` loop of
`FbQueueHelper::consolidate` (`src/heap.rs` lines 100-105) for one drained
root: link with the occupant of the bucket at the root's current rank, clear
that bucket, recompute the rank, and repeat until an empty bucket receives the
root.  Out-of-range indexing is the Rust panic (`none`).  The fuel argument
only bounds the recursion; each iteration clears one occupied bucket, so
`ranks.length + 1` fuel can never run out. -/
def placeRoot : Nat → St → List (Option Nat) → Nat → Option (St × List (Option Nat))
  | 0, _, _, _ => none
  | fuel + 1, s, ranks, r =>
    if h : (s.store r).children.length < ranks.length then
      match ranks.get ⟨(s.store r).children.length, h⟩ with
      | some nid =>
        placeRoot fuel (linkNodes s r nid) (ranks.set (s.store r).children.length none) r
      | none => some (s, ranks.set (s.store r).children.length (some r))
    else none

/-- The `for mut root in self.drain_roots()` loop of `consolidate`. -/
def consolidateList : St → List (Option Nat) → List Nat → Option (St × List (Option Nat))
  | s, ranks, [] => some (s, ranks)
  | s, ranks, r :: rs =>
    match placeRoot (ranks.length + 1) s ranks r with
    | none => none
    | some (s', ranks') => consolidateList s' ranks' rs

/-- `FbQueueHelper::consolidate` (`src/heap.rs` lines 94-112): build
`max_node_rank` empty buckets, drain all roots through the bucket loop, then
reinsert every occupied bucket into the (drained) root list in order. -/
def consolidate (s : St) : Option St :=
  match max_node_rank s.node_count with
  | none => none
  | some mr =>
    match consolidateList { s with roots := [] } (List.replicate mr none) s.roots with
    | none => none
    | some (s', ranks) => some { s' with roots := ranks.reduceOption }

/-- Structural equality of two `NRef`s as Rust's `PartialEq` computes it:
pointer equality short-circuit (`Rc`'s `Eq` specialisation), otherwise
field-by-field comparison of the `NCore`s in declaration order with
short-circuiting, recursing through `parent` and `children`.  The derived
comparison can recurse forever on isomorphic aliased structures (a stack
overflow in Rust), modelled by fuel exhaustion (`none`). -/
def nrefEq (s : St) : Nat → Nat → Nat → Option Bool
  | 0, _, _ => none
  | fuel + 1, a, b =>
    if a = b then some true
    else
      let na := s.store a
      let nb := s.store b
      if na.value ≠ nb.value then some false
      else if na.priority ≠ nb.priority then some false
      else
        let pres : Option Bool :=
          match na.parent, nb.parent with
          | none, none => some true
          | some pa, some pb => nrefEq s fuel pa pb
          | _, _ => some false
        match pres with
        | none => none
        | some false => some false
        | some true =>
          if na.children.length ≠ nb.children.length then some false
          else
            let cres : Option Bool :=
              (na.children.zip nb.children).foldl
                (fun acc cd =>
                  match acc with
                  | none => none
                  | some false => some false
                  | some true => nrefEq s fuel cd.1 cd.2)
                (some true)
            match cres with
            | none => none
            | some false => some false
            | some true => some (decide (na.marked = nb.marked))

/-- `self.roots.iter().position(|x| x == &node)` inside `remove_root`:
index of the first root comparing equal to the target; `some none` when the
search fails (`Error::InvalidIndex`), `none` for a diverging comparison. -/
def findEqIdx (s : St) (tgt : Nat) : List Nat → Nat → Option (Option Nat)
  | [], _ => some none
  | x :: xs, i =>
    match nrefEq s (s.nextId + 1) x tgt with
    | none => none
    | some true => some (some i)
    | some false => findEqIdx s tgt xs (i + 1)

/-- `Vec::swap_remove(i)`: replace position `i` with the last element and
drop the last slot. -/
def swapRemove (l : List Nat) (i : Nat) : List Nat :=
  (l.set i (l.getLastD 0)).dropLast

/-- Net effect of the `for child in first.drain_children()` loop in `pop`
(`src/heap.rs` lines 178-181): the popped node's child list is drained, each
drained child's parent pointer is cleared, and each child is appended to
`roots`. -/
def drainChildren (s : St) (f : Nat) : St :=
  let cs := (s.store f).children
  { s with
    store := fun x =>
      let n := s.store x
      let n1 := if x = f then { n with children := [] } else n
      if x ∈ cs then { n1 with parent := none } else n1
    roots := s.roots ++ cs }

/-- `find_first` from the `make_first_fns!` macro: `roots.iter().min()`,
which returns the first minimal element (comparison is by priority only,
via `NCore::cmp`). -/
def find_first (s : St) : Option Nat :=
  s.roots.foldl
    (fun acc r =>
      match acc with
      | none => some r
      | some a => if (s.store a).priority > (s.store r).priority then some r else some a)
    none

/-- Number of strong references to node `f` held by the queue structure:
occurrences in `roots`, in child lists, in parent pointers, in the cached
`first`, and in the `HashQueue` index.  `Rc::into_inner` in `NPrpt::pair`
succeeds exactly when this is zero (the popped handle itself being the last
reference). -/
def refCount (s : St) (f : Nat) : Nat :=
  s.roots.count f
    + (((List.range s.nextId).map (fun x => (s.store x).children.count f)).sum)
    + ((List.range s.nextId).filter (fun x => (s.store x).parent = some f)).length
    + (if s.first = some f then 1 else 0)
    + (s.index.filter (fun e => e.2 = f)).length

/-- Outcome of an operation that can panic. -/
inductive PopRes where
  | crash
  | res (r : Except Error (Nat × Int)) (s : St)

/-- `FbQueue::pop` (`src/heap.rs` lines 167-190): swap out `first`
(`Error::Empty` when absent), `decrement_node_count` (`checked_sub`),
`remove_root` on the extracted node (searching by `PartialEq`), promote its
children to roots, `consolidate`, rescan for the new `first`, and finally
release the payload via `NPrpt::pair`, which fails with
`ImpossibleRcRelease` when any strong reference to the node remains. -/
def pop (s : St) : PopRes :=
  match s.first with
  | none => .res (.error .Empty) { s with first := none }
  | some f =>
    let s1 : St := { s with first := none }
    if s1.node_count = 0 then .res (.error .Empty) s1
    else
      let s2 : St := { s1 with node_count := s1.node_count - 1 }
      match findEqIdx s2 f s2.roots 0 with
      | none => .crash
      | some none => .res (.error .InvalidIndex) s2
      | some (some i) =>
        let s3 : St := { s2 with roots := swapRemove s2.roots i }
        let s4 : St := drainChildren s3 f
        match consolidate s4 with
        | none => .crash
        | some s5 =>
          let s6 : St :=
            match find_first s5 with
            | some nf => { s5 with first := some nf }
            | none => s5
          if refCount s6 f = 0 then
            .res (.ok ((s6.store f).value, (s6.store f).priority))
              (s6.upd f (fun n => { n with parent := none }))
          else .res (.error .ImpossibleRcRelease) s6

/-- `FbQueueHelper::cut_node` (`src/heap.rs` lines 116-126), with fuel for the
recursion up the parent chain (unbounded recursion on a corrupted chain is a
Rust stack overflow): mark the parent, clear the node's parent pointer, append
the node to `roots`, unmark it, and recurse on the parent when it is marked —
which it always is, having just been marked. -/
def cut_node : Nat → St → Nat → Option St
  | 0, _, _ => none
  | fuel + 1, s, id =>
    match (s.store id).parent with
    | none => some s
    | some p =>
      let s1 := s.upd p (fun n => { n with marked := true })
      let s2 := s1.upd id (fun n => { n with parent := none })
      let s3 : St := { s2 with roots := s2.roots ++ [id] }
      let s4 := s3.upd id (fun n => { n with marked := false })
      if (s4.store p).marked then cut_node fuel s4 p else some s4

/-- The breadth-first search of `SimpleQueue::get_node` (`src/heap.rs` lines
337-349): a `VecDeque` seeded with the roots, descending into children,
without a visited set (it can loop forever on an aliased cyclic structure:
fuel exhaustion). -/
def bfsFind (s : St) (v : Nat) : Nat → List Nat → Option (Option Nat)
  | 0, _ => none
  | _ + 1, [] => some none
  | fuel + 1, q :: qs =>
    if (s.store q).value = v then some (some q)
    else bfsFind s v fuel (qs ++ (s.store q).children)

/-- `get_node`: hash lookup for `HashQueue`, breadth-first search for
`SimpleQueue`. -/
def get_node (s : St) (v : Nat) : Option (Option Nat) :=
  if s.indexed then some (idxLookup s.index v)
  else bfsFind s v (2 ^ (2 * s.nextId) + 1) s.roots

/-- Outcome of `decrease_priority`. -/
inductive DecRes where
  | crash
  | res (r : Except Error Unit) (s : St)

/-- `FbQueue::decrease_priority` (`src/heap.rs` lines 199-216): look up the
node by value (`InvalidIndex` when absent), reject a non-strictly-lower new
priority (`CannotIncreasePriority`), otherwise set it; when the node now
orders strictly below its parent, `cut_node` it and — only inside that same
branch — update the cached `first` when the node orders strictly below it. -/
def decrease_priority (s : St) (v : Nat) (np : Int) : DecRes :=
  match get_node s v with
  | none => .crash
  | some none => .res (.error .InvalidIndex) s
  | some (some nid) =>
    if (s.store nid).priority > np then
      let s1 := s.upd nid (fun n => { n with priority := np })
      match (s1.store nid).parent with
      | some pid =>
        if (s1.store nid).priority < (s1.store pid).priority then
          match cut_node (s1.nextId + 1) s1 nid with
          | none => .crash
          | some s2 =>
            match s2.first with
            | some f =>
              if (s2.store nid).priority < (s2.store f).priority then
                .res (.ok ()) { s2 with first := some nid }
              else .res (.ok ()) s2
            | none => .res (.ok ()) s2
        else .res (.ok ()) s1
      | none => .res (.ok ()) s1
    else .res (.error .CannotIncreasePriority) s

/-- Apply a list of `push` operations (the push phase of a workload). -/
def applyPushes (s : St) (ps : List (Nat × Int)) : St :=
  ps.foldl (fun st vp => (push st vp.1 vp.2).2) s

/-- Priorities returned by the successful pops among `n` consecutive `pop`
calls; a panic stops the run. -/
def runPops : St → Nat → List Int
  | _, 0 => []
  | s, n + 1 =>
    match pop s with
    | .crash => []
    | .res (.ok (_, p)) s' => p :: runPops s' n
    | .res (.error _) s' => runPops s' n

/-- States reachable from `new()` (either front-end) through the public
operations; a panic has no successor state. -/
inductive Reachable : St → Prop where
  | start (b : Bool) : Reachable (newQueue b)
  | push {s : St} {v : Nat} {p : Int} {r s'} :
      Reachable s → push s v p = (r, s') → Reachable s'
  | pop {s : St} {r s'} :
      Reachable s → pop s = .res r s' → Reachable s'
  | dec {s : St} {v : Nat} {np : Int} {r s'} :
      Reachable s → decrease_priority s v np = .res r s' → Reachable s'

end FbHeap

namespace FbHeap

/-! ## Proof support: basic state algebra -/

/-- Priority of the node with identifier `x`. -/
def prioOf (s : St) (x : Nat) : Int := (s.store x).priority

/-- Heap order on the shallow structure: every child list entry has priority
at least its parent's (invariant I1 of the spec, restricted to child lists). -/
def HeapOrd (s : St) : Prop :=
  ∀ p c, c ∈ (s.store p).children → prioOf s p ≤ prioOf s c

/-- All child-list entries are allocated identifiers. -/
def ChildLt (s : St) (N : Nat) : Prop :=
  ∀ p c, c ∈ (s.store p).children → c < N

theorem store_upd (s : St) (i : Nat) (f : Node → Node) (x : Nat) :
    (s.upd i f).store x = if x = i then f (s.store i) else s.store x := by
  simp only [St.upd]
  split <;> simp_all

theorem upd_roots (s : St) (i : Nat) (f : Node → Node) : (s.upd i f).roots = s.roots := rfl

theorem upd_first (s : St) (i : Nat) (f : Node → Node) : (s.upd i f).first = s.first := rfl

theorem upd_count (s : St) (i : Nat) (f : Node → Node) :
    (s.upd i f).node_count = s.node_count := rfl

theorem upd_nextId (s : St) (i : Nat) (f : Node → Node) : (s.upd i f).nextId = s.nextId := rfl

theorem upd_index (s : St) (i : Nat) (f : Node → Node) : (s.upd i f).index = s.index := rfl

/-! ## linkNodes lemmas -/

theorem linkNodes_roots (s : St) (a b : Nat) : (linkNodes s a b).roots = s.roots := by
  unfold linkNodes; split <;> rfl

theorem linkNodes_first (s : St) (a b : Nat) : (linkNodes s a b).first = s.first := by
  unfold linkNodes; split <;> rfl

theorem linkNodes_count (s : St) (a b : Nat) :
    (linkNodes s a b).node_count = s.node_count := by
  unfold linkNodes; split <;> rfl

theorem linkNodes_nextId (s : St) (a b : Nat) : (linkNodes s a b).nextId = s.nextId := by
  unfold linkNodes; split <;> rfl

theorem linkNodes_index (s : St) (a b : Nat) : (linkNodes s a b).index = s.index := by
  unfold linkNodes; split <;> rfl

theorem linkNodes_indexed (s : St) (a b : Nat) : (linkNodes s a b).indexed = s.indexed := by
  unfold linkNodes; split <;> rfl

theorem prioOf_linkNodes (s : St) (a b x : Nat) :
    prioOf (linkNodes s a b) x = prioOf s x := by
  unfold linkNodes prioOf
  split <;> simp only [store_upd] <;> split <;> split <;> simp_all

theorem children_linkNodes (s : St) (a b x : Nat) :
    ((linkNodes s a b).store x).children =
      if (s.store a).priority > (s.store b).priority then
        (if x = b then (s.store b).children ++ [a] else (s.store x).children)
      else
        (if x = a then (s.store a).children ++ [b] else (s.store x).children) := by
  unfold linkNodes
  split <;> simp only [store_upd] <;> split <;> split <;> simp_all

theorem linkNodes_heap {s : St} {a b : Nat} (h : HeapOrd s) : HeapOrd (linkNodes s a b) := by
  intro p c hc
  rw [prioOf_linkNodes, prioOf_linkNodes]
  rw [children_linkNodes] at hc
  by_cases hab : (s.store a).priority > (s.store b).priority
  · simp only [hab, if_true] at hc
    by_cases hpb : p = b
    · subst hpb
      have hc' : c ∈ (s.store p).children ∨ c = a := by simpa using hc
      rcases hc' with h1 | h1
      · exact h _ _ h1
      · subst h1
        exact le_of_lt hab
    · simp only [hpb, if_false] at hc
      exact h _ _ hc
  · simp only [hab, if_false] at hc
    by_cases hpa : p = a
    · subst hpa
      have hc' : c ∈ (s.store p).children ∨ c = b := by simpa using hc
      rcases hc' with h1 | h1
      · exact h _ _ h1
      · subst h1
        exact le_of_not_lt hab
    · simp only [hpa, if_false] at hc
      exact h _ _ hc

theorem linkNodes_childLt {s : St} {a b N : Nat} (ha : a < N) (hb : b < N)
    (h : ChildLt s N) : ChildLt (linkNodes s a b) N := by
  intro p c hc
  rw [children_linkNodes] at hc
  by_cases hab : (s.store a).priority > (s.store b).priority
  · simp only [hab, if_true] at hc
    split at hc
    · rcases List.mem_append.mp hc with h1 | h1
      · exact h _ _ h1
      · have : c = a := by simpa using h1
        omega
    · exact h _ _ hc
  · simp only [hab, if_false] at hc
    split at hc
    · rcases List.mem_append.mp hc with h1 | h1
      · exact h _ _ h1
      · have : c = b := by simpa using h1
        omega
    · exact h _ _ hc

end FbHeap

namespace FbHeap

/-! ## List helper lemmas -/

theorem getLastD_mem : ∀ (l : List Nat) (d : Nat), l ≠ [] → l.getLastD d ∈ l := by
  intro l
  induction l with
  | nil => intro d h; exact absurd rfl h
  | cons x t ih =>
    intro d _
    cases t with
    | nil => simp [List.getLastD]
    | cons y u =>
      rw [List.getLastD_cons]
      exact List.mem_cons_of_mem _ (ih x (by simp))

theorem mem_swapRemove {l : List Nat} {i : Nat} {a : Nat} (h : a ∈ swapRemove l i) :
    a ∈ l := by
  unfold swapRemove at h
  have h1 : a ∈ l.set i (l.getLastD 0) := List.dropLast_subset _ h
  rcases List.mem_or_eq_of_mem_set h1 with h2 | h2
  · exact h2
  · subst h2
    rcases l with _ | ⟨x, t⟩
    · simp at h
    · exact getLastD_mem _ _ (by simp)

theorem reduceOption_replicate_none (n : Nat) :
    (List.replicate n (none : Option Nat)).reduceOption = [] := by
  induction n with
  | zero => rfl
  | succ k ih => simpa [List.replicate_succ, List.reduceOption_cons_of_none] using ih

/-! ## placeRoot lemmas -/

/-- Fields of the state untouched by the bucket loop. -/
theorem placeRoot_frame :
    ∀ (fuel : Nat) (s : St) (ranks : List (Option Nat)) (r : Nat) (s' : St)
      (ranks' : List (Option Nat)),
      placeRoot fuel s ranks r = some (s', ranks') →
      s'.roots = s.roots ∧ s'.first = s.first ∧ s'.node_count = s.node_count ∧
        s'.nextId = s.nextId ∧ s'.index = s.index ∧ s'.indexed = s.indexed ∧
        ranks'.length = ranks.length := by
  intro fuel
  induction fuel with
  | zero => intro s ranks r s' ranks' h; simp [placeRoot] at h
  | succ k ih =>
    intro s ranks r s' ranks' h
    unfold placeRoot at h
    split at h
    · split at h
      · rename_i nid _
        have := ih (linkNodes s r nid) (ranks.set _ none) r s' ranks' h
        simpa [linkNodes_roots, linkNodes_first, linkNodes_count, linkNodes_nextId,
          linkNodes_index, linkNodes_indexed] using this
      · injection h with h'
        injection h' with h1 h2
        subst h1; subst h2
        simp
    · exact absurd h (by simp)

/-- Behavioural core of the bucket loop: priorities are untouched, heap order
and children bounds are preserved, and every bucketed identifier stays bounded
below by `B` and strictly below `N`. -/
theorem placeRoot_spec {B : Int} {N : Nat} :
    ∀ (fuel : Nat) (s : St) (ranks : List (Option Nat)) (r : Nat) (s' : St)
      (ranks' : List (Option Nat)),
      placeRoot fuel s ranks r = some (s', ranks') →
      HeapOrd s → ChildLt s N → r < N → B ≤ prioOf s r →
      (∀ id, id ∈ ranks.reduceOption → id < N ∧ B ≤ prioOf s id) →
      (∀ x, prioOf s' x = prioOf s x) ∧ HeapOrd s' ∧ ChildLt s' N ∧
        (∀ id, id ∈ ranks'.reduceOption → id < N ∧ B ≤ prioOf s' id) := by
  intro fuel
  induction fuel with
  | zero => intro s ranks r s' ranks' h; simp [placeRoot] at h
  | succ k ih =>
    intro s ranks r s' ranks' h hH hC hrN hrB hRk
    unfold placeRoot at h
    split at h
    · rename_i hlt
      split at h
      · rename_i nid hget
        have hnidmem : nid ∈ ranks.reduceOption := by
          rw [List.reduceOption_mem_iff]
          rw [← hget]
          exact List.get_mem ranks _ _
        obtain ⟨hnidN, hnidB⟩ := hRk nid hnidmem
        have hH1 : HeapOrd (linkNodes s r nid) := linkNodes_heap hH
        have hC1 : ChildLt (linkNodes s r nid) N := linkNodes_childLt hrN hnidN hC
        have hprio : ∀ x, prioOf (linkNodes s r nid) x = prioOf s x :=
          fun x => prioOf_linkNodes s r nid x
        have hRk1 : ∀ id, id ∈ (ranks.set ((s.store r).children.length) none).reduceOption →
            id < N ∧ B ≤ prioOf (linkNodes s r nid) id := by
          intro id hid
          rw [List.reduceOption_mem_iff] at hid
          rcases List.mem_or_eq_of_mem_set hid with h2 | h2
          · have := hRk id (List.reduceOption_mem_iff.mpr h2)
            rw [hprio id]
            exact this
          · exact absurd h2 (by simp)
        have := ih (linkNodes s r nid) _ r s' ranks' h hH1 hC1 hrN
          (by rw [hprio r]; exact hrB) hRk1
        obtain ⟨hp, hh, hc, hb⟩ := this
        refine ⟨fun x => by rw [hp x, hprio x], hh, hc, ?_⟩
        intro id hid
        exact hb id hid
      · injection h with h'
        injection h' with h1 h2
        subst h1; subst h2
        refine ⟨fun _ => rfl, hH, hC, ?_⟩
        intro id hid
        rw [List.reduceOption_mem_iff] at hid
        rcases List.mem_or_eq_of_mem_set hid with h2 | h2
        · exact hRk id (List.reduceOption_mem_iff.mpr h2)
        · have : id = r := by simpa using h2
          subst this
          exact ⟨hrN, hrB⟩
    · exact absurd h (by simp)

/-! ## consolidateList lemmas -/

theorem consolidateList_frame :
    ∀ (rs : List Nat) (s : St) (ranks : List (Option Nat)) (s' : St)
      (ranks' : List (Option Nat)),
      consolidateList s ranks rs = some (s', ranks') →
      s'.roots = s.roots ∧ s'.first = s.first ∧ s'.node_count = s.node_count ∧
        s'.nextId = s.nextId ∧ s'.index = s.index ∧ s'.indexed = s.indexed := by
  intro rs
  induction rs with
  | nil =>
    intro s ranks s' ranks' h
    simp only [consolidateList] at h
    injection h with h'
    injection h' with h1 h2
    subst h1
    simp
  | cons r t ih =>
    intro s ranks s' ranks' h
    simp only [consolidateList] at h
    split at h
    · exact absurd h (by simp)
    · rename_i s1 ranks1 heq
      obtain ⟨f1, f2, f3, f4, f5, f6, _⟩ := placeRoot_frame _ s ranks r s1 ranks1 heq
      obtain ⟨g1, g2, g3, g4, g5, g6⟩ := ih s1 ranks1 s' ranks' h
      exact ⟨g1.trans f1, g2.trans f2, g3.trans f3, g4.trans f4, g5.trans f5, g6.trans f6⟩

theorem consolidateList_spec {B : Int} {N : Nat} :
    ∀ (rs : List Nat) (s : St) (ranks : List (Option Nat)) (s' : St)
      (ranks' : List (Option Nat)),
      consolidateList s ranks rs = some (s', ranks') →
      HeapOrd s → ChildLt s N →
      (∀ r, r ∈ rs → r < N ∧ B ≤ prioOf s r) →
      (∀ id, id ∈ ranks.reduceOption → id < N ∧ B ≤ prioOf s id) →
      (∀ x, prioOf s' x = prioOf s x) ∧ HeapOrd s' ∧ ChildLt s' N ∧
        (∀ id, id ∈ ranks'.reduceOption → id < N ∧ B ≤ prioOf s' id) := by
  intro rs
  induction rs with
  | nil =>
    intro s ranks s' ranks' h hH hC _ hRk
    simp only [consolidateList] at h
    injection h with h'
    injection h' with h1 h2
    subst h1; subst h2
    exact ⟨fun _ => rfl, hH, hC, hRk⟩
  | cons r t ih =>
    intro s ranks s' ranks' h hH hC hrs hRk
    simp only [consolidateList] at h
    split at h
    · exact absurd h (by simp)
    · rename_i s1 ranks1 heq
      obtain ⟨hp1, hH1, hC1, hRk1⟩ := placeRoot_spec _ s ranks r s1 ranks1 heq hH hC
        (hrs r (by simp)).1 (hrs r (by simp)).2 hRk
      obtain ⟨hp2, hH2, hC2, hRk2⟩ := ih s1 ranks1 s' ranks' h hH1 hC1
        (fun x hx => by rw [hp1 x]; exact hrs x (by simp [hx])) hRk1
      exact ⟨fun x => (hp2 x).trans (hp1 x), hH2, hC2, hRk2⟩

/-! ## consolidate lemmas -/

theorem consolidate_frame {s s' : St} (h : consolidate s = some s') :
    s'.first = s.first ∧ s'.node_count = s.node_count ∧ s'.nextId = s.nextId ∧
      s'.index = s.index ∧ s'.indexed = s.indexed ∧ s.node_count ≠ 0 := by
  unfold consolidate at h
  split at h
  · exact absurd h (by simp)
  · rename_i mr hmr
    split at h
    · exact absurd h (by simp)
    · rename_i s1 ranks1 heq
      injection h with h'
      subst h'
      obtain ⟨_, f2, f3, f4, f5, f6⟩ := consolidateList_frame _ _ _ _ _ heq
      have hcnt : s.node_count ≠ 0 := by
        intro h0
        rw [h0] at hmr
        simp [max_node_rank] at hmr
      exact ⟨f2, f3, f4, f5, f6, hcnt⟩

theorem consolidate_spec {B : Int} {N : Nat} {s s' : St} (h : consolidate s = some s')
    (hH : HeapOrd s) (hC : ChildLt s N)
    (hR : ∀ r, r ∈ s.roots → r < N ∧ B ≤ prioOf s r) :
    (∀ x, prioOf s' x = prioOf s x) ∧ HeapOrd s' ∧ ChildLt s' N ∧
      (∀ r, r ∈ s'.roots → r < N ∧ B ≤ prioOf s' r) := by
  unfold consolidate at h
  split at h
  · exact absurd h (by simp)
  · rename_i mr hmr
    split at h
    · exact absurd h (by simp)
    · rename_i s1 ranks1 heq
      injection h with h'
      subst h'
      have hRk0 : ∀ id, id ∈ (List.replicate mr (none : Option Nat)).reduceOption →
          id < N ∧ B ≤ prioOf { s with roots := ([] : List Nat) } id := by
        intro id hid
        rw [reduceOption_replicate_none] at hid
        simp at hid
      obtain ⟨hp, hH1, hC1, hRk⟩ := consolidateList_spec (B := B) (N := N) s.roots
        { s with roots := [] } _ s1 ranks1 heq hH hC (fun r hr => hR r hr) hRk0
      refine ⟨fun x => hp x, hH1, hC1, ?_⟩
      intro r hr
      exact hRk r hr

end FbHeap

namespace FbHeap

/-! ## find_first lemmas -/

theorem find_first_aux (s : St) :
    ∀ (l : List Nat) (acc : Option Nat) (f : Nat),
      List.foldl
          (fun acc r =>
            match acc with
            | none => some r
            | some a =>
              if (s.store a).priority > (s.store r).priority then some r else some a)
          acc l = some f →
      (f ∈ l ∨ acc = some f) ∧ (∀ r, r ∈ l → prioOf s f ≤ prioOf s r) ∧
        (∀ a, acc = some a → prioOf s f ≤ prioOf s a) := by
  intro l
  induction l with
  | nil =>
    intro acc f h
    simp only [List.foldl_nil] at h
    refine ⟨Or.inr h, by simp, ?_⟩
    intro a ha
    rw [h] at ha
    injection ha with ha
    subst ha
    exact le_refl _
  | cons r t ih =>
    intro acc f h
    simp only [List.foldl_cons] at h
    obtain ⟨hmem, hbt, haccb⟩ := ih _ f h
    cases acc with
    | none =>
      refine ⟨?_, ?_, by simp⟩
      · rcases hmem with h1 | h1
        · exact Or.inl (List.mem_cons_of_mem _ h1)
        · injection h1 with h1
          exact Or.inl (by simp [h1])
      · intro x hx
        rcases List.mem_cons.mp hx with h1 | h1
        · subst h1
          exact haccb x rfl
        · exact hbt x h1
    | some a =>
      by_cases hcmp : (s.store a).priority > (s.store r).priority
      · simp only [hcmp, if_true] at hmem hbt haccb
        refine ⟨?_, ?_, ?_⟩
        · rcases hmem with h1 | h1
          · exact Or.inl (List.mem_cons_of_mem _ h1)
          · injection h1 with h1
            exact Or.inl (by simp [h1])
        · intro x hx
          rcases List.mem_cons.mp hx with h1 | h1
          · subst h1
            exact haccb x rfl
          · exact hbt x h1
        · intro b hb
          injection hb with hb
          subst hb
          exact le_trans (haccb r rfl) (le_of_lt hcmp)
      · simp only [hcmp, if_false] at hmem hbt haccb
        refine ⟨?_, ?_, ?_⟩
        · rcases hmem with h1 | h1
          · exact Or.inl (List.mem_cons_of_mem _ h1)
          · exact Or.inr h1
        · intro x hx
          rcases List.mem_cons.mp hx with h1 | h1
          · subst h1
            exact le_trans (haccb a rfl) (le_of_not_lt hcmp)
          · exact hbt x h1
        · exact haccb
  
theorem find_first_spec {s : St} {f : Nat} (h : find_first s = some f) :
    f ∈ s.roots ∧ ∀ r, r ∈ s.roots → prioOf s f ≤ prioOf s r := by
  unfold find_first at h
  obtain ⟨hmem, hb, _⟩ := find_first_aux s s.roots none f h
  rcases hmem with h1 | h1
  · exact ⟨h1, hb⟩
  · exact absurd h1 (by simp)

/-! ## drainChildren lemmas -/

theorem drainChildren_roots (s : St) (f : Nat) :
    (drainChildren s f).roots = s.roots ++ (s.store f).children := rfl

theorem drainChildren_first (s : St) (f : Nat) : (drainChildren s f).first = s.first := rfl

theorem drainChildren_count (s : St) (f : Nat) :
    (drainChildren s f).node_count = s.node_count := rfl

theorem drainChildren_nextId (s : St) (f : Nat) :
    (drainChildren s f).nextId = s.nextId := rfl

theorem drainChildren_index (s : St) (f : Nat) : (drainChildren s f).index = s.index := rfl

theorem drainChildren_indexed (s : St) (f : Nat) :
    (drainChildren s f).indexed = s.indexed := rfl

theorem prioOf_drainChildren (s : St) (f x : Nat) :
    prioOf (drainChildren s f) x = prioOf s x := by
  unfold drainChildren prioOf
  dsimp only
  split <;> split <;> rfl

theorem children_drainChildren (s : St) (f x : Nat) :
    ((drainChildren s f).store x).children = if x = f then [] else (s.store x).children := by
  unfold drainChildren
  dsimp only
  split <;> split <;> simp_all

theorem drainChildren_heap {s : St} {f : Nat} (h : HeapOrd s) : HeapOrd (drainChildren s f) := by
  intro p c hc
  rw [prioOf_drainChildren, prioOf_drainChildren]
  rw [children_drainChildren] at hc
  split at hc
  · simp at hc
  · exact h _ _ hc

theorem drainChildren_childLt {s : St} {f N : Nat} (h : ChildLt s N) :
    ChildLt (drainChildren s f) N := by
  intro p c hc
  rw [children_drainChildren] at hc
  split at hc
  · simp at hc
  · exact h _ _ hc

/-! ## The pop-phase invariant -/

/-- Lower bound by an optional value (`none` bounds nothing). -/
def leOpt : Option Int → Int → Prop
  | none, _ => True
  | some m, x => m ≤ x

theorem leOpt_trans {m : Option Int} {x y : Int} (h1 : leOpt m x) (h2 : x ≤ y) :
    leOpt m y := by
  cases m with
  | none => trivial
  | some v => exact le_trans h1 h2

/-- Invariant carried across the pop phase: `m` is the last successfully
returned priority.  Root and cached-first identifiers are allocated, child
lists stay allocated, heap order holds, all roots are bounded below by `m`,
and the cached first is a lower bound for every root and itself bounded below
by `m`. -/
structure Inv (s : St) (m : Option Int) : Prop where
  roots_lt : ∀ r, r ∈ s.roots → r < s.nextId
  first_lt : ∀ f, s.first = some f → f < s.nextId
  childLt : ChildLt s s.nextId
  heap : HeapOrd s
  roots_ge : ∀ r, r ∈ s.roots → leOpt m (prioOf s r)
  first_ge : ∀ f, s.first = some f → leOpt m (prioOf s f)
  first_min : ∀ f, s.first = some f → ∀ r, r ∈ s.roots → prioOf s f ≤ prioOf s r

end FbHeap

namespace FbHeap

theorem prioOf_upd_parent (s : St) (i : Nat) (q : Option Nat) (x : Nat) :
    prioOf (s.upd i (fun n => { n with parent := q })) x = prioOf s x := by
  unfold prioOf
  rw [store_upd]
  split <;> simp_all

theorem children_upd_parent (s : St) (i : Nat) (q : Option Nat) (x : Nat) :
    ((s.upd i (fun n => { n with parent := q })).store x).children =
      (s.store x).children := by
  rw [store_upd]
  split <;> simp_all

/-- One `pop` call preserves the pop-phase invariant: on an error the bound is
kept, on success the returned priority is above the old bound and becomes the
new bound. -/
theorem pop_inv {s : St} {m : Option Int} (hI : Inv s m)
    {r : Except Error (Nat × Int)} {s' : St} (h : pop s = .res r s') :
    (∀ e, r = .error e → Inv s' m) ∧
      (∀ vp : Nat × Int, r = .ok vp → leOpt m vp.2 ∧ Inv s' (some vp.2)) := by
  rw [pop] at h
  split at h
  · -- s.first = none
    injection h with h1 h2
    subst h1; subst h2
    refine ⟨fun e _ => ?_, fun vp hvp => by simp at hvp⟩
    exact {
      roots_lt := hI.roots_lt
      first_lt := by intro f hf; simp at hf
      childLt := hI.childLt
      heap := hI.heap
      roots_ge := hI.roots_ge
      first_ge := by intro f hf; simp at hf
      first_min := by intro f hf; simp at hf }
  · -- s.first = some f
    rename_i f hf
    simp only [] at h
    split at h
    · -- node_count = 0
      injection h with h1 h2
      subst h1; subst h2
      refine ⟨fun e _ => ?_, fun vp hvp => by simp at hvp⟩
      exact {
        roots_lt := hI.roots_lt
        first_lt := by intro g hg; simp at hg
        childLt := hI.childLt
        heap := hI.heap
        roots_ge := hI.roots_ge
        first_ge := by intro g hg; simp at hg
        first_min := by intro g hg; simp at hg }
    · split at h
      · -- findEqIdx diverged: crash
        exact absurd h (by simp)
      · -- root not found: InvalidIndex
        injection h with h1 h2
        subst h1; subst h2
        refine ⟨fun e _ => ?_, fun vp hvp => by simp at hvp⟩
        exact {
          roots_lt := hI.roots_lt
          first_lt := by intro g hg; simp at hg
          childLt := hI.childLt
          heap := hI.heap
          roots_ge := hI.roots_ge
          first_ge := by intro g hg; simp at hg
          first_min := by intro g hg; simp at hg }
      · -- root removed at index i
        rename_i i hidx
        split at h
        · -- consolidate panicked
          exact absurd h (by simp)
        · rename_i s5 hcons
          -- facts about the pre-consolidate state
          have hfl : f < s.nextId := hI.first_lt f hf
          have hfge : leOpt m (prioOf s f) := hI.first_ge f hf
          have hroots4 : ∀ x, x ∈ swapRemove s.roots i ++ (s.store f).children →
              x < s.nextId ∧ prioOf s f ≤ prioOf s x := by
            intro x hx
            rcases List.mem_append.mp hx with h1 | h1
            · have hmem := mem_swapRemove h1
              exact ⟨hI.roots_lt x hmem, hI.first_min f hf x hmem⟩
            · exact ⟨hI.childLt f x h1, hI.heap f x h1⟩
          have hspec := consolidate_spec (B := prioOf s f) (N := s.nextId) hcons
            (drainChildren_heap hI.heap) (drainChildren_childLt hI.childLt)
            (by
              intro x hx
              rw [drainChildren_roots] at hx
              have := hroots4 x hx
              rw [prioOf_drainChildren]
              exact this)
          obtain ⟨hp5, hH5, hC5, hR5⟩ := hspec
          have hframe := consolidate_frame hcons
          obtain ⟨hfi5, hct5, hni5, hix5, hib5, _⟩ := hframe
          have hni5' : s5.nextId = s.nextId := by
            rw [hni5, drainChildren_nextId]
          have hp5' : ∀ x, prioOf s5 x = prioOf s x := by
            intro x
            rw [hp5 x, prioOf_drainChildren]
            rfl
          have hfi5' : s5.first = none := by
            rw [hfi5, drainChildren_first]
          have hR5' : ∀ x, x ∈ s5.roots → x < s.nextId ∧ prioOf s f ≤ prioOf s5 x := hR5
          have hC5' : ChildLt s5 s.nextId := hC5
          -- case on find_first, then on the refCount test
          cases hff : find_first s5 with
          | some nf =>
            simp only [hff] at h
            obtain ⟨hnfmem, hnfmin⟩ := find_first_spec hff
            obtain ⟨hnfN, hnfB⟩ := hR5' nf hnfmem
            split at h
            · -- successful extraction
              injection h with h1 h2
              subst h1; subst h2
              constructor
              · intro e he
                simp at he
              · intro vp hvp
                injection hvp with hvp
                subst hvp
                refine ⟨by simpa using leOpt_trans hfge (le_of_eq (hp5' f).symm), ?_⟩
                refine {
                  roots_lt := ?_, first_lt := ?_, childLt := ?_, heap := ?_,
                  roots_ge := ?_, first_ge := ?_, first_min := ?_ }
                · intro x hx
                  simp only [upd_roots, upd_nextId] at hx ⊢
                  exact (hR5' x hx).1.trans_le (le_of_eq hni5'.symm)
                · intro g hg
                  simp only [upd_first, upd_nextId] at hg ⊢
                  injection hg with hg
                  subst hg
                  exact hnfN.trans_le (le_of_eq hni5'.symm)
                · intro p c hc
                  rw [children_upd_parent] at hc
                  simp only [upd_nextId]
                  rw [hni5']
                  exact hC5' p c hc
                · intro p c hc
                  rw [children_upd_parent] at hc
                  rw [prioOf_upd_parent, prioOf_upd_parent]
                  exact hH5 p c hc
                · intro x hx
                  simp only [upd_roots] at hx
                  rw [prioOf_upd_parent]
                  show prioOf s5 f ≤ prioOf s5 x
                  rw [hp5' f]
                  exact (hR5' x hx).2
                · intro g hg
                  simp only [upd_first] at hg
                  injection hg with hg
                  subst hg
                  rw [prioOf_upd_parent]
                  show prioOf s5 f ≤ prioOf s5 nf
                  rw [hp5' f]
                  exact hnfB
                · intro g hg x hx
                  simp only [upd_first] at hg
                  simp only [upd_roots] at hx
                  injection hg with hg
                  subst hg
                  rw [prioOf_upd_parent, prioOf_upd_parent]
                  exact hnfmin x hx
            · -- ImpossibleRcRelease
              injection h with h1 h2
              subst h1; subst h2
              refine ⟨fun e _ => ?_, fun vp hvp => by simp at hvp⟩
              refine {
                roots_lt := ?_, first_lt := ?_, childLt := ?_, heap := ?_,
                roots_ge := ?_, first_ge := ?_, first_min := ?_ }
              · intro x hx
                simp only [] at hx ⊢
                exact (hR5' x hx).1.trans_le (le_of_eq hni5'.symm)
              · intro g hg
                simp only [] at hg ⊢
                injection hg with hg
                subst hg
                exact hnfN.trans_le (le_of_eq hni5'.symm)
              · intro p c hc
                show c < s5.nextId
                rw [hni5']
                exact hC5' p c hc
              · exact hH5
              · intro x hx
                simp only [] at hx
                exact leOpt_trans hfge (hR5' x hx).2
              · intro g hg
                simp only [] at hg
                injection hg with hg
                subst hg
                exact leOpt_trans hfge hnfB
              · intro g hg x hx
                simp only [] at hg hx
                injection hg with hg
                subst hg
                exact hnfmin x hx
          | none =>
            simp only [hff] at h
            split at h
            · injection h with h1 h2
              subst h1; subst h2
              constructor
              · intro e he
                simp at he
              · intro vp hvp
                injection hvp with hvp
                subst hvp
                refine ⟨by simpa using leOpt_trans hfge (le_of_eq (hp5' f).symm), ?_⟩
                refine {
                  roots_lt := ?_, first_lt := ?_, childLt := ?_, heap := ?_,
                  roots_ge := ?_, first_ge := ?_, first_min := ?_ }
                · intro x hx
                  simp only [upd_roots, upd_nextId] at hx ⊢
                  exact (hR5' x hx).1.trans_le (le_of_eq hni5'.symm)
                · intro g hg
                  simp only [upd_first] at hg
                  rw [hfi5'] at hg
                  simp at hg
                · intro p c hc
                  rw [children_upd_parent] at hc
                  simp only [upd_nextId]
                  rw [hni5']
                  exact hC5' p c hc
                · intro p c hc
                  rw [children_upd_parent] at hc
                  rw [prioOf_upd_parent, prioOf_upd_parent]
                  exact hH5 p c hc
                · intro x hx
                  simp only [upd_roots] at hx
                  rw [prioOf_upd_parent]
                  show prioOf s5 f ≤ prioOf s5 x
                  rw [hp5' f]
                  exact (hR5' x hx).2
                · intro g hg
                  simp only [upd_first] at hg
                  rw [hfi5'] at hg
                  simp at hg
                · intro g hg
                  simp only [upd_first] at hg
                  rw [hfi5'] at hg
                  simp at hg
            · injection h with h1 h2
              subst h1; subst h2
              refine ⟨fun e _ => ?_, fun vp hvp => by simp at hvp⟩
              refine {
                roots_lt := ?_, first_lt := ?_, childLt := ?_, heap := ?_,
                roots_ge := ?_, first_ge := ?_, first_min := ?_ }
              · intro x hx
                exact (hR5' x hx).1.trans_le (le_of_eq hni5'.symm)
              · intro g hg
                rw [hfi5'] at hg
                simp at hg
              · intro p c hc
                show c < s5.nextId
                rw [hni5']
                exact hC5' p c hc
              · exact hH5
              · intro x hx
                exact leOpt_trans hfge (hR5' x hx).2
              · intro g hg
                rw [hfi5'] at hg
                simp at hg
              · intro g hg
                rw [hfi5'] at hg
                simp at hg

end FbHeap

namespace FbHeap

/-! ## Push preservation -/

/-- Invariant for the freshly pushed state, shared by the capacity-failure and
success branches of `push` (which differ only in `node_count`). -/
theorem pushInv_core (s : St) (v : Nat) (p : Int) (hI : Inv s none) (fl : Option Nat)
    (cnt : Nat) (bx : Bool) (ix : List (Nat × Nat))
    (hfl : (∃ f, fl = some f ∧ s.first = some f ∧ (s.store f).priority < p) ∨
      (fl = some s.nextId ∧ (∀ f, s.first = some f → p ≤ (s.store f).priority) ∧
        (s.first = none → s.roots = []))) :
    Inv
      { store := fun x => if x = s.nextId then ⟨v, p, none, [], false⟩ else s.store x
        nextId := s.nextId + 1
        roots := s.roots ++ [s.nextId]
        first := fl
        node_count := cnt
        indexed := bx
        index := ix } none := by
  have hprio : ∀ x, x ≠ s.nextId →
      (if x = s.nextId then (⟨v, p, none, [], false⟩ : Node) else s.store x).priority =
        prioOf s x := by
    intro x hx
    rw [if_neg hx]
    rfl
  have hprioN :
      (if s.nextId = s.nextId then (⟨v, p, none, [], false⟩ : Node) else s.store s.nextId).priority
        = p := by
    rw [if_pos rfl]
  refine {
    roots_lt := ?_, first_lt := ?_, childLt := ?_, heap := ?_,
    roots_ge := ?_, first_ge := ?_, first_min := ?_ }
  · intro x hx
    dsimp only at hx ⊢
    rcases List.mem_append.mp hx with h1 | h1
    · have := hI.roots_lt x h1
      omega
    · have : x = s.nextId := by simpa using h1
      omega
  · intro f hf
    dsimp only at hf ⊢
    rcases hfl with ⟨g, hg, hsf, _⟩ | ⟨hg, _, _⟩
    · rw [hg] at hf
      injection hf with hf
      subst hf
      have := hI.first_lt g hsf
      omega
    · rw [hg] at hf
      injection hf with hf
      omega
  · intro q c hc
    dsimp only at hc ⊢
    split at hc
    · simp at hc
    · have := hI.childLt q c hc
      omega
  · intro q c hc
    dsimp only at hc ⊢
    split at hc
    · simp at hc
    · rename_i hq
      have hcN : c < s.nextId := hI.childLt q c hc
      unfold prioOf
      dsimp only
      rw [if_neg hq, if_neg (by omega : c ≠ s.nextId)]
      exact hI.heap q c hc
  · intro x _
    trivial
  · intro f _
    trivial
  · intro f hf x hx
    unfold prioOf
    dsimp only at hf ⊢
    rcases hfl with ⟨g, hg, hsf, hlt⟩ | ⟨hg, hub, hemp⟩
    · rw [hg] at hf
      injection hf with hf
      subst hf
      have hgN : g < s.nextId := hI.first_lt g hsf
      rw [if_neg (by omega : g ≠ s.nextId)]
      rcases List.mem_append.mp hx with h1 | h1
      · have hxN := hI.roots_lt x h1
        rw [if_neg (by omega : x ≠ s.nextId)]
        exact hI.first_min g hsf x h1
      · have hxe : x = s.nextId := by simpa using h1
        subst hxe
        rw [if_pos rfl]
        exact le_of_lt hlt
    · rw [hg] at hf
      injection hf with hf
      subst hf
      rw [if_pos rfl]
      rcases List.mem_append.mp hx with h1 | h1
      · have hxN := hI.roots_lt x h1
        rw [if_neg (by omega : x ≠ s.nextId)]
        cases hsf : s.first with
        | none =>
          rw [hemp hsf] at h1
          simp at h1
        | some f0 =>
          exact le_trans (hub f0 hsf) (hI.first_min f0 hsf x h1)
      · have hxe : x = s.nextId := by simpa using h1
        subst hxe
        rw [if_pos rfl]

theorem push_pushInv {s : St} (hI : Inv s none) (hE : s.first = none → s.roots = [])
    (v : Nat) (p : Int) :
    Inv (push s v p).2 none ∧ ((push s v p).2.first = none → (push s v p).2.roots = []) := by
  unfold push
  cases hf : s.first with
  | none =>
    simp only [hf]
    have hside : (∀ g, s.first = some g → p ≤ (s.store g).priority) ∧
        (s.first = none → s.roots = []) :=
      ⟨fun g hsf => absurd (hf.symm.trans hsf) (by simp), hE⟩
    split <;> split <;>
      exact ⟨pushInv_core s v p hI _ _ _ _ (Or.inr ⟨rfl, hside⟩),
        fun h => Option.noConfusion h⟩
  | some f =>
    have hne : f ≠ s.nextId := by
      have := hI.first_lt f hf
      omega
    simp only [hf]
    rw [if_neg hne]
    by_cases hcmp : (s.store f).priority < p
    · rw [if_pos hcmp]
      split <;> split <;>
        exact ⟨pushInv_core s v p hI _ _ _ _ (Or.inl ⟨f, rfl, hf, hcmp⟩),
          fun h => Option.noConfusion h⟩
    · rw [if_neg hcmp]
      have hside : (∀ g, s.first = some g → p ≤ (s.store g).priority) ∧
          (s.first = none → s.roots = []) := by
        constructor
        · intro g hg
          rw [hf] at hg
          injection hg with hg
          subst hg
          exact le_of_not_lt hcmp
        · intro h
          rw [hf] at h
          exact Option.noConfusion h
      split <;> split <;>
        exact ⟨pushInv_core s v p hI _ _ _ _ (Or.inr ⟨rfl, hside⟩),
          fun h => Option.noConfusion h⟩

theorem newQueue_inv (b : Bool) :
    Inv (newQueue b) none ∧ ((newQueue b).first = none → (newQueue b).roots = []) := by
  refine ⟨{ roots_lt := ?_, first_lt := ?_, childLt := ?_, heap := ?_,
            roots_ge := ?_, first_ge := ?_, first_min := ?_ }, fun _ => rfl⟩
  · intro x hx
    simp [newQueue] at hx
  · intro f hf
    simp [newQueue] at hf
  · intro q c hc
    simp [newQueue] at hc
  · intro q c hc
    simp [newQueue] at hc
  · intro x hx
    simp [newQueue] at hx
  · intro f hf
    simp [newQueue] at hf
  · intro f hf
    simp [newQueue] at hf

theorem applyPushes_inv (b : Bool) (ps : List (Nat × Int)) :
    Inv (applyPushes (newQueue b) ps) none := by
  suffices h : ∀ (ps : List (Nat × Int)) (s : St),
      Inv s none → (s.first = none → s.roots = []) →
      Inv (applyPushes s ps) none ∧
        ((applyPushes s ps).first = none → (applyPushes s ps).roots = []) by
    exact (h ps (newQueue b) (newQueue_inv b).1 (newQueue_inv b).2).1
  intro ps
  induction ps with
  | nil => intro s h1 h2; exact ⟨h1, h2⟩
  | cons q t ih =>
    intro s h1 h2
    have hstep := push_pushInv h1 h2 q.1 q.2
    exact ih _ hstep.1 hstep.2

/-! ## Sortedness of the pop run -/

theorem runPops_sorted {s : St} {m : Option Int} (hI : Inv s m) (n : Nat) :
    List.Sorted (· ≤ ·) (runPops s n) ∧ ∀ x, x ∈ runPops s n → leOpt m x := by
  induction n generalizing s m with
  | zero => simp [runPops]
  | succ k ih =>
    cases hp : pop s with
    | crash =>
      simp [runPops, hp]
    | res r s' =>
      have hpres := pop_inv hI hp
      cases r with
      | error e =>
        have hI' := hpres.1 e rfl
        have := ih hI'
        simpa [runPops, hp] using this
      | ok vp =>
        obtain ⟨hle, hI'⟩ := hpres.2 vp rfl
        obtain ⟨hs, hb⟩ := ih hI'
        constructor
        · simp only [runPops, hp]
          rw [List.sorted_cons]
          exact ⟨fun b hbmem => hb b hbmem, hs⟩
        · intro x hx
          simp only [runPops, hp, List.mem_cons] at hx
          rcases hx with h1 | h1
          · subst h1
            exact hle
          · exact leOpt_trans hle (hb x h1)

end FbHeap

namespace FbHeap

/-! ## Count-zero-implies-no-first, over reachable states -/

/-- A queue with a zero node count has no cached first element. -/
def Inv0 (s : St) : Prop := s.node_count = 0 → s.first = none

theorem push_count (s : St) (v : Nat) (p : Int) :
    (push s v p).2.node_count = s.node_count + 1 ∨
      (push s v p).2.node_count = usizeMax := by
  unfold push
  cases hf : s.first <;>
    (simp only [hf]
     repeat' split
     all_goals
       first
         | (left; rfl)
         | (right; assumption))

theorem cut_node_frame :
    ∀ (fuel : Nat) (s : St) (id : Nat) (s' : St), cut_node fuel s id = some s' →
      s'.first = s.first ∧ s'.node_count = s.node_count := by
  intro fuel
  induction fuel with
  | zero => intro s id s' h; simp [cut_node] at h
  | succ k ih =>
    intro s id s' h
    simp only [cut_node] at h
    split at h
    · injection h with h'
      subst h'
      exact ⟨rfl, rfl⟩
    · split at h
      · obtain ⟨a1, a2⟩ := ih _ _ _ h
        exact ⟨a1, a2⟩
      · injection h with h'
        subst h'
        exact ⟨rfl, rfl⟩

theorem pop_inv0 {s : St} {r : Except Error (Nat × Int)} {s' : St}
    (h : pop s = .res r s') : Inv0 s' := by
  rw [pop] at h
  split at h
  · injection h with h1 h2
    subst h2
    intro _
    rfl
  · rename_i f hf
    simp only [] at h
    split at h
    · injection h with h1 h2
      subst h2
      intro _
      rfl
    · split at h
      · exact absurd h (by simp)
      · injection h with h1 h2
        subst h2
        intro _
        rfl
      · rename_i i hidx
        split at h
        · exact absurd h (by simp)
        · rename_i s5 hcons
          obtain ⟨hfi5, hct5, _, _, _, hcz⟩ := consolidate_frame hcons
          cases hff : find_first s5 with
          | some nf =>
            simp only [hff] at h
            split at h <;>
              (injection h with h1 h2
               subst h2
               intro hc
               exfalso
               apply hcz
               rw [← hct5]
               simpa using hc)
          | none =>
            simp only [hff] at h
            split at h <;>
              (injection h with h1 h2
               subst h2
               intro _
               simpa using hfi5)

theorem dec_inv0 {s : St} {v : Nat} {np : Int} {r : Except Error Unit} {s' : St}
    (hpre : Inv0 s) (h : decrease_priority s v np = .res r s') : Inv0 s' := by
  rw [decrease_priority] at h
  split at h
  · exact absurd h (by simp)
  · injection h with h1 h2
    subst h2
    exact hpre
  · rename_i nid hnid
    split at h
    · simp only [] at h
      split at h
      · split at h
        · split at h
          · exact absurd h (by simp)
          · rename_i s2 hcut
            obtain ⟨hfi2, hct2⟩ := cut_node_frame _ _ _ _ hcut
            split at h
            · rename_i fch hfch
              split at h
              · injection h with h1 h2
                subst h2
                intro hc
                exfalso
                have hc2 : s2.node_count = 0 := hc
                rw [hct2, upd_count] at hc2
                have hnone := hpre hc2
                rw [hfi2, upd_first] at hfch
                rw [hnone] at hfch
                exact Option.noConfusion hfch
              · injection h with h1 h2
                subst h2
                intro hc
                have hc2 : s2.node_count = 0 := hc
                rw [hct2, upd_count] at hc2
                rw [hfi2, upd_first]
                exact hpre hc2
            · injection h with h1 h2
              subst h2
              intro hc
              have hc2 : s2.node_count = 0 := hc
              rw [hct2, upd_count] at hc2
              rw [hfi2, upd_first]
              exact hpre hc2
        · injection h with h1 h2
          subst h2
          intro hc
          exact hpre hc
      · injection h with h1 h2
        subst h2
        intro hc
        exact hpre hc
    · injection h with h1 h2
      subst h2
      exact hpre

theorem reachable_inv0 {s : St} (h : Reachable s) : Inv0 s := by
  induction h with
  | start b => intro _; rfl
  | push hR hp ih =>
    rename_i s0 v p r s1
    intro hc
    exfalso
    have := push_count s0 v p
    rw [hp] at this
    rcases this with h1 | h1
    · rw [hc] at h1
      omega
    · rw [hc] at h1
      unfold usizeMax at h1
      omega
  | pop hR hp ih => exact pop_inv0 hp
  | dec hR hp ih => exact dec_inv0 ih hp

theorem st_set_first_none {s : St} (h : s.first = none) : { s with first := none } = s := by
  obtain ⟨st, ni, ro, fi, nc, ib, ix⟩ := s
  simp only [] at h
  rw [h]

/-! ## Claim theorems -/

/-- C1: for every sequence of pushes on a fresh queue (either front-end,
`b` selecting the indexed one) followed by any number of pop calls, the
priorities returned by the successful pops form a non-decreasing sequence. -/
theorem c1_pop_priorities_sorted (b : Bool) (ps : List (Nat × Int)) (n : Nat) :
    List.Sorted (· ≤ ·) (runPops (applyPushes (newQueue b) ps) n) :=
  (runPops_sorted (applyPushes_inv b ps) n).1

/-- C9: on any reachable empty queue (either front-end), `pop` fails with
`Error::Empty`, does not panic, and leaves the queue unchanged. -/
theorem c9_pop_empty_errors_unchanged (s : St) (hR : Reachable s)
    (h0 : s.node_count = 0) : pop s = .res (.error .Empty) s := by
  have hf : s.first = none := reachable_inv0 hR h0
  rw [pop]
  rw [hf]
  rw [st_set_first_none hf]

/-- Witness for C9 at the fresh simple queue. -/
theorem c9_pop_empty_errors_unchanged_witness :
    (newQueue false).node_count = 0 ∧
      pop (newQueue false) = .res (.error .Empty) (newQueue false) :=
  ⟨rfl, c9_pop_empty_errors_unchanged (newQueue false) (Reachable.start false) rfl⟩

end FbHeap

namespace FbHeap

/-! ## Outcome projections used by the concrete claim scenarios -/

/-- Error (if any) of a pop outcome. -/
def popErr : PopRes → Option Error
  | .res (.error e) _ => some e
  | _ => none

/-- Returned payload (if any) of a pop outcome. -/
def popVal : PopRes → Option (Nat × Int)
  | .res (.ok vp) _ => some vp
  | _ => none

/-- State of a non-panicking pop outcome, with a fallback default. -/
def popStateD : PopRes → St → St
  | .res _ s, _ => s
  | .crash, d => d

/-- Whether a decrease_priority outcome succeeded. -/
def decOk : DecRes → Bool
  | .res (.ok _) _ => true
  | _ => false

/-- State of a non-panicking decrease_priority outcome, with a fallback. -/
def decStateD : DecRes → St → St
  | .res _ s, _ => s
  | .crash, d => d

/-! ## C5 -/

/-- C5 (code bug): `max_node_rank` is not total — at `node_count = 0` the
computation `0.pow(3).ilog(4)` panics (`ilog` panics on a zero argument)
instead of returning a value or `Error::Numerical`; consequently popping the
last remaining element (here: the only element of a fresh queue after one
push), which runs `consolidate` with the already decremented count 0, panics
rather than completing. -/
theorem c5_max_rank_panics_on_zero :
    max_node_rank 0 = none ∧
      pop (applyPushes (newQueue false) [(0, 1)]) = .crash := ⟨rfl, rfl⟩

/-! ## C2 -/

/-- C2 (code bug): in the indexed front-end, the payload extraction at the end
of `pop` fails with `ImpossibleRcRelease` on a perfectly ordinary reachable
state — after `push(0, 1); push(1, 2)` the very first `pop` fails, because
`HashQueue::insert_node` stored a second strong reference to the node in the
value→node map and `pop` never removes it, so `Rc::into_inner` in
`NPrpt::pair` sees an outstanding reference. -/
theorem c2_hashqueue_pop_release_fails :
    popErr (pop (applyPushes (newQueue true) [(0, 1), (1, 2)])) =
      some .ImpossibleRcRelease := rfl

/-! ## C6 -/

/-- State after `push(10, 3); push(11, 1); push(12, 4); pop()` on the simple
front-end. -/
def c6_state : St :=
  popStateD (pop (applyPushes (newQueue false) [(10, 3), (11, 1), (12, 4)])) (newQueue false)

/-- C6 (code bug): after the (successful) `pop` of `(11, 1)`, node 2 violates
forest membership: `consolidate` linked node 2 under node 0 and then, because
the bucket loop tracks the variable `root` (which became the child) instead of
the merged tree's parent, reinserted node 2 into the root list while it is
still in node 0's child list with its parent pointer set — a node that is
both a root and a child. -/
theorem c6_node_both_root_and_child :
    popVal (pop (applyPushes (newQueue false) [(10, 3), (11, 1), (12, 4)])) = some (11, 1) ∧
    2 ∈ c6_state.roots ∧
    2 ∈ (c6_state.store 0).children ∧
    (c6_state.store 2).parent = some 0 := by
  refine ⟨rfl, ?_, ?_, rfl⟩ <;> decide

/-! ## C3 -/

/-- A three-node chain `0 ← 1 ← 2` (parent pointers to the left), all
unmarked, with node 0 the only root: the configuration on which `cut_node`'s
behaviour is observed. -/
def c3_chain : St :=
  { store := fun x =>
      if x = 0 then ⟨0, 0, none, [1], false⟩
      else if x = 1 then ⟨1, 1, some 0, [2], false⟩
      else if x = 2 then ⟨2, 2, some 1, [], false⟩
      else ⟨0, 0, none, [], false⟩
    nextId := 3
    roots := [0]
    first := some 0
    node_count := 3
    indexed := false
    index := [] }

/-- Result of cutting node 2 out of the chain (the fuel is the same
`nextId + 1` bound `decrease_priority` passes). -/
def c3_cut : St := (cut_node (c3_chain.nextId + 1) c3_chain 2).getD c3_chain

/-- C3 (code bug): cutting node 2, whose parent node 1 was *not* marked,
nevertheless recursively cuts node 1 — because `cut_node` calls
`parent.mark()` before testing `parent.is_marked()`, the test is always true
and the cascade is unconditional.  Afterwards node 1 has lost its parent, sits
in the root list and is unmarked, where the claim requires it to stay a
marked child of node 0; moreover node 2 was never removed from node 1's child
list (no `remove_child` call), so the "detach" is incomplete. -/
theorem c3_cut_cascades_unconditionally :
    (c3_chain.store 1).marked = false ∧
    (cut_node (c3_chain.nextId + 1) c3_chain 2).isSome = true ∧
    (c3_cut.store 1).parent = none ∧
    1 ∈ c3_cut.roots ∧
    (c3_cut.store 1).marked = false ∧
    2 ∈ (c3_cut.store 1).children := by
  refine ⟨rfl, rfl, rfl, ?_, rfl, ?_⟩ <;> decide

/-! ## C4 -/

/-- State after `push(0, 10); push(1, 20); decrease_priority(1, 5)` on the
simple front-end. -/
def c4_state : St :=
  decStateD (decrease_priority (applyPushes (newQueue false) [(0, 10), (1, 20)]) 1 5)
    (newQueue false)

/-- C4 (code bug): the `decrease_priority` call succeeds and lowers node 1's
priority to 5, strictly below the cached first's priority 10, but `first`
still points at node 0 — the first-pointer update in `decrease_priority` is
nested inside the `cut` branch, so it is skipped whenever the affected node is
already a root. -/
theorem c4_first_not_updated_for_root :
    decOk (decrease_priority (applyPushes (newQueue false) [(0, 10), (1, 20)]) 1 5) = true ∧
    c4_state.first = some 0 ∧
    (c4_state.store 1).priority = 5 ∧
    (c4_state.store 0).priority = 10 := ⟨rfl, rfl, rfl, rfl⟩

/-! ## C7 -/

/-- State after `push(3, 5); push(4, 6); pop()` on the indexed front-end. -/
def c7_state : St :=
  popStateD (pop (applyPushes (newQueue true) [(3, 5), (4, 6)])) (newQueue true)

/-- C7 counterexample: after `pop` removes node 0 (value 3) from the queue
structure, the index still maps value 3 to node 0, which is neither a root
nor in any child list — the index is not in 1:1 sync with the live nodes. -/
theorem c7_index_stale_after_pop_counterexample :
    idxLookup c7_state.index 3 = some 0 ∧
    0 ∉ c7_state.roots ∧
    ((List.range c7_state.nextId).all fun x => decide (0 ∉ (c7_state.store x).children))
      = true := by
  refine ⟨rfl, ?_, ?_⟩ <;> decide

/-- C7 amended: `pop` never touches the value→node index, so entries inserted
by `push` persist after the node is popped. -/
theorem c7_index_untouched_by_pop {s : St} {r : Except Error (Nat × Int)} {s' : St}
    (h : pop s = .res r s') : s'.index = s.index := by
  rw [pop] at h
  split at h
  · injection h with h1 h2
    subst h2
    rfl
  · rename_i f hf
    simp only [] at h
    split at h
    · injection h with h1 h2
      subst h2
      rfl
    · split at h
      · exact absurd h (by simp)
      · injection h with h1 h2
        subst h2
        rfl
      · rename_i i hidx
        split at h
        · exact absurd h (by simp)
        · rename_i s5 hcons
          obtain ⟨_, _, _, hix5, _, _⟩ := consolidate_frame hcons
          cases hff : find_first s5 with
          | some nf =>
            simp only [hff] at h
            split at h <;>
              (injection h with h1 h2
               subst h2
               exact hix5)
          | none =>
            simp only [hff] at h
            split at h <;>
              (injection h with h1 h2
               subst h2
               exact hix5)

/-- Witness for the amended C7 at a concrete indexed queue. -/
theorem c7_index_untouched_by_pop_witness :
    (popStateD (pop (applyPushes (newQueue true) [(7, 1), (8, 2)]))
        (applyPushes (newQueue true) [(7, 1), (8, 2)])).index =
      (applyPushes (newQueue true) [(7, 1), (8, 2)]).index :=
  c7_index_untouched_by_pop rfl

/-! ## C8 -/

/-- C8: `decrease_priority` with a new priority that is not strictly lower
than the current priority of the node resolved for the value (in particular an
equal priority) fails with `CannotIncreasePriority` and leaves the queue
completely unchanged. -/
theorem c8_cannot_increase_priority_rejected (s : St) (v : Nat) (np : Int) (nid : Nat)
    (hget : get_node s v = some (some nid)) (hle : ¬(s.store nid).priority > np) :
    decrease_priority s v np = .res (.error .CannotIncreasePriority) s := by
  rw [decrease_priority, hget]
  simp only []
  rw [if_neg hle]

/-- Witness for C8: a queue holding value 5 at priority 7; a decrease to the
equal priority 7 is rejected and the state is untouched. -/
theorem c8_cannot_increase_priority_rejected_witness :
    get_node (applyPushes (newQueue false) [(5, 7)]) 5 = some (some 0) ∧
    ¬((applyPushes (newQueue false) [(5, 7)]).store 0).priority > 7 ∧
    decrease_priority (applyPushes (newQueue false) [(5, 7)]) 5 7 =
      .res (.error .CannotIncreasePriority) (applyPushes (newQueue false) [(5, 7)]) :=
  ⟨rfl, by decide,
    c8_cannot_increase_priority_rejected _ 5 7 0 rfl (by decide)⟩

end FbHeap

namespace FbHeap

/-! ## C10 -/

theorem push_cap_fst {s : St} (v : Nat) (p : Int) (hcap : s.node_count = usizeMax) :
    (push s v p).1 = .error .ReachedCapacity := by
  unfold push
  cases hf : s.first <;>
    (simp only [hf]
     repeat' split
     all_goals first
       | rfl
       | exact absurd hcap (by assumption))

theorem push_cap_count {s : St} (v : Nat) (p : Int) (hcap : s.node_count = usizeMax) :
    (push s v p).2.node_count = s.node_count := by
  unfold push
  cases hf : s.first <;>
    (simp only [hf]
     repeat' split
     all_goals first
       | rfl
       | exact absurd hcap (by assumption))

theorem push_roots_eq (s : St) (v : Nat) (p : Int) :
    (push s v p).2.roots = s.roots ++ [s.nextId] := by
  unfold push
  cases hf : s.first <;>
    (simp only [hf]
     repeat' split
     all_goals rfl)

theorem push_store_new (s : St) (v : Nat) (p : Int) :
    (push s v p).2.store s.nextId = ⟨v, p, none, [], false⟩ := by
  unfold push
  cases hf : s.first <;>
    (simp only [hf]
     repeat' split
     all_goals simp)

theorem push_index_new {s : St} (v : Nat) (p : Int) (hbx : s.indexed = true) :
    idxLookup (push s v p).2.index v = some s.nextId := by
  unfold push
  cases hf : s.first <;>
    (simp only [hf]
     repeat' split
     all_goals first
       | (simp [idxInsert, idxLookup])
       | exact absurd hbx (by assumption))

theorem push_first_of_none {s : St} (v : Nat) (p : Int) (hf0 : s.first = none) :
    (push s v p).2.first = some s.nextId := by
  unfold push
  simp only [hf0]
  repeat' split
  all_goals rfl

/-- C10: when `push` fails with `ReachedCapacity` (the `usize` node counter is
saturated), the failure is not atomic: the node has already been allocated and
appended to the root list, the indexed front-end has already recorded it in
the value→node map, and on a previously empty queue it has been cached as
`first`; only `node_count` is unchanged. -/
theorem c10_push_capacity_failure_not_atomic (s : St) (v : Nat) (p : Int)
    (hcap : s.node_count = usizeMax) :
    (push s v p).1 = .error .ReachedCapacity ∧
    (push s v p).2.node_count = s.node_count ∧
    (push s v p).2.roots = s.roots ++ [s.nextId] ∧
    (push s v p).2.store s.nextId = ⟨v, p, none, [], false⟩ ∧
    (s.indexed = true → idxLookup (push s v p).2.index v = some s.nextId) ∧
    (s.first = none → (push s v p).2.first = some s.nextId) :=
  ⟨push_cap_fst v p hcap, push_cap_count v p hcap, push_roots_eq s v p,
    push_store_new s v p, fun hbx => push_index_new v p hbx,
    fun hf0 => push_first_of_none v p hf0⟩

/-- An indexed queue whose node counter is saturated. -/
def c10_state : St :=
  { store := fun _ => ⟨0, 0, none, [], false⟩
    nextId := 0
    roots := []
    first := none
    node_count := usizeMax
    indexed := true
    index := [] }

/-- Witness for C10 at the saturated queue. -/
theorem c10_push_capacity_failure_not_atomic_witness :
    c10_state.node_count = usizeMax ∧
    ((push c10_state 4 9).1 = .error .ReachedCapacity ∧
      (push c10_state 4 9).2.node_count = c10_state.node_count ∧
      (push c10_state 4 9).2.roots = c10_state.roots ++ [c10_state.nextId] ∧
      (push c10_state 4 9).2.store c10_state.nextId = ⟨4, 9, none, [], false⟩ ∧
      (c10_state.indexed = true →
        idxLookup (push c10_state 4 9).2.index 4 = some c10_state.nextId) ∧
      (c10_state.first = none → (push c10_state 4 9).2.first = some c10_state.nextId)) :=
  ⟨rfl, c10_push_capacity_failure_not_atomic c10_state 4 9 rfl⟩

end FbHeap
